import Mathlib

/-!
Shallow embedding of `src/lib/assignments.js` from the Secret_Santa
repository: the Fisher–Yates `shuffle` and the constrained assignment
search `computeMapping`.  Randomness is modelled by a stream
`g : Nat → Nat` of draws; the JS call `Math.floor(Math.random() * (i + 1))`
at loop index `i` is embedded as `g k % (i + 1)` where `k` counts the
random draws made so far (both expressions range over exactly `[0, i]`).
-/

namespace SecretSanta

universe u

/-- JS array-destructuring swap over a list copy,
the statement `[a[i], a[j]] = [a[j], a[i]]` of `shuffle`: exchange the
elements at positions `i` and `j` (a no-op when an index is out of bounds,
which never happens in the loop). -/
def lswap {α : Type*} (l : List α) (i j : Nat) : List α :=
  match l[i]?, l[j]? with
  | some x, some y => (l.set i y).set j x
  | _, _ => l

/-- The loop of `shuffle`: `fyAux g k i a` runs the remaining iterations
for indices `i, i - 1, …, 1`, where `g k` is the next random draw. -/
def fyAux {α : Type*} (g : Nat → Nat) (k : Nat) : Nat → List α → List α
  | 0, a => a
  | i + 1, a => fyAux g (k + 1) i (lswap a (i + 1) (g k % (i + 2)))

/-- Embedding of `shuffle(arr)`: Fisher–Yates over a copy of the input,
consuming the draws `g k, g (k + 1), …` (one per loop iteration). -/
def shuffleFrom {α : Type*} (g : Nat → Nat) (k : Nat) (l : List α) : List α :=
  fyAux g k (l.length - 1) l

/-- An exclusion rule triple `[user_a_id, user_b_id, mutual?]`. -/
abbrev ExclusionRule := String × String × Bool

/-- The JS object `excl` mapping a giver id to its `Set` of excluded
receiver ids; keys that were never assigned are `none`. -/
abbrev ExclMap := String → Option (Finset String)

/-- Assignment `excl[k] = v` on the exclusion object. -/
def updateMap (m : ExclMap) (k : String) (v : Finset String) : ExclMap :=
  fun x => if x = k then some v else m x

/-- The seeding loop `memberIds.forEach(id => { excl[id] = new Set([id]); })`. -/
def seedExcl (members : List String) : ExclMap :=
  members.foldl (fun m x => updateMap m x {x}) (fun _ => none)

/-- One iteration of the rule loop:
`if (!excl[a]) excl[a] = new Set([a]); excl[a].add(b);
if (mutual) { if (!excl[b]) excl[b] = new Set([b]); excl[b].add(a); }`. -/
def addRule (m : ExclMap) : ExclusionRule → ExclMap
  | (a, b, mu) =>
    let m1 := updateMap m a (insert b ((m a).getD {a}))
    if mu then updateMap m1 b (insert a ((m1 b).getD {b})) else m1

/-- The exclusion object built by `computeMapping` before the search:
seed every member with itself, then fold the exclusion rules. -/
def buildExcl (members : List String) (rules : List ExclusionRule) : ExclMap :=
  rules.foldl addRule (seedExcl members)

/-- The test `excl[giver] && excl[giver].has(receiver)`. -/
def exclHas (m : ExclMap) (giver receiver : String) : Bool :=
  match m giver with
  | none => false
  | some s => decide (receiver ∈ s)

/-- The validation loop over one candidate pairing: a candidate is rejected
as soon as one pair has its receiver excluded for its giver. -/
def checkOk (excl : ExclMap) (pairs : List (String × String)) : Bool :=
  pairs.all fun p => ! exclHas excl p.1 p.2

/-- Candidate receivers of attempt `t`: each attempt re-shuffles the
original `memberIds`; attempt `t` begins after `t * (n - 1)` draws were
consumed by the previous attempts. -/
def attemptReceivers (g : Nat → Nat) (members : List String) (t : Nat) : List String :=
  shuffleFrom g (t * (members.length - 1)) members

/-- The result object of `computeMapping`: `{success:true, mapping}` or
`{success:false, error}`. -/
inductive MappingResult
  | success : List (String × String) → MappingResult
  | failure : String → MappingResult
  deriving DecidableEq

/-- The retry loop of `computeMapping`: `t` is the attempt counter and `r`
the remaining budget, so the loop is entered with `r = maxRetries`. -/
def searchLoop (g : Nat → Nat) (excl : ExclMap) (members : List String) :
    Nat → Nat → MappingResult
  | _, 0 => .failure "Unable to find valid assignment under current constraints"
  | t, r + 1 =>
    let receivers := attemptReceivers g members t
    if checkOk excl (members.zip receivers) then
      .success (members.zip receivers)
    else
      searchLoop g excl members (t + 1) r

/-- Embedding of `computeMapping(memberIds, exclusions, maxRetries = 2000)`
for an array-valued `memberIds` argument (`computeMappingJS` adds the
dynamic `Array.isArray` guard).  The mapping
`memberIds.map((giver, idx) => ({giver_id, receiver_id: receivers[idx]}))`
is the positional zip of the givers with the candidate receivers. -/
def computeMapping (g : Nat → Nat) (memberIds : List String)
    (exclusions : List ExclusionRule) (maxRetries : Int := 2000) : MappingResult :=
  if memberIds.length < 2 then .failure "Need at least 2 participants"
  else searchLoop g (buildExcl memberIds exclusions) memberIds 0 maxRetries.toNat

/-- A JavaScript value passed as the `memberIds` argument: either an array
of ids, or any non-array value (tagged by a description such as "null"). -/
inductive JsValue
  | arr : List String → JsValue
  | nonArray : String → JsValue

/-- Embedding of the full guard
`if (!Array.isArray(memberIds) || memberIds.length < 2) return …`:
a non-array argument short-circuits to the same structured failure. -/
def computeMappingJS (g : Nat → Nat) (v : JsValue)
    (exclusions : List ExclusionRule) (maxRetries : Int := 2000) : MappingResult :=
  match v with
  | .nonArray _ => .failure "Need at least 2 participants"
  | .arr l => computeMapping g l exclusions maxRetries

/-- Specification-side Fisher–Yates, transcribed from the spec's words for
the refinement claim about `shuffle`: iterate `i` from the last position
down to 1 and at each step exchange the elements at positions `i` and
`j i`, where `j i` is the index drawn for step `i`. -/
def fisherYatesSpec {α : Type*} (j : Nat → Nat) : Nat → List α → List α
  | 0, a => a
  | i + 1, a => fisherYatesSpec j i (lswap a (i + 1) (j (i + 1)))

/-- Specification-side `shuffle`: run `fisherYatesSpec` from index `N - 1`. -/
def shuffleSpec {α : Type*} (j : Nat → Nat) (l : List α) : List α :=
  fisherYatesSpec j (l.length - 1) l

/-- Setting position `i` to the value already there leaves the list unchanged. -/
lemma set_self_of_getElem {α : Type*} {l : List α} {i : Nat} {x : α}
    (hi : l[i]? = some x) : l.set i x = l := by
  apply List.ext_getElem?
  intro n
  rw [List.getElem?_set]
  by_cases h : i = n
  · subst h
    obtain ⟨hlt, _⟩ := List.getElem?_eq_some_iff.mp hi
    simp [hlt, hi.symm]
  · simp [h]

/-- Moving the element at position `k` to the front while overwriting the
hole with `x` is a permutation of putting `x` in front. -/
lemma swap_cons_perm {α : Type*} :
    ∀ (xs : List α) (k : Nat) (y x : α), xs[k]? = some y →
      (y :: xs.set k x).Perm (x :: xs) := by
  intro xs
  induction xs with
  | nil => intro k y x h; simp at h
  | cons z zs ih =>
    intro k y x h
    cases k with
    | zero =>
      simp only [List.getElem?_cons_zero, Option.some.injEq] at h
      subst h
      rw [List.set_cons_zero]
      exact List.Perm.swap _ _ _
    | succ k =>
      simp only [List.getElem?_cons_succ] at h
      rw [List.set_cons_succ]
      exact (List.Perm.swap z y (zs.set k x)).trans
        (((ih k y x h).cons z).trans (List.Perm.swap x z zs))

/-- Exchanging the values at two distinct in-bounds positions is a
permutation. -/
lemma set_set_perm {α : Type*} :
    ∀ (l : List α) (i j : Nat) (x y : α), i ≠ j → l[i]? = some x →
      l[j]? = some y → ((l.set i y).set j x).Perm l := by
  intro l
  induction l with
  | nil => intro i j x y _ hi _; simp at hi
  | cons z zs ih =>
    intro i j x y hij hi hj
    cases i with
    | zero =>
      cases j with
      | zero => exact absurd rfl hij
      | succ m =>
        simp only [List.getElem?_cons_zero, Option.some.injEq] at hi
        simp only [List.getElem?_cons_succ] at hj
        subst hi
        rw [List.set_cons_zero, List.set_cons_succ]
        exact swap_cons_perm zs m _ _ hj
    | succ n =>
      cases j with
      | zero =>
        simp only [List.getElem?_cons_zero, Option.some.injEq] at hj
        simp only [List.getElem?_cons_succ] at hi
        subst hj
        rw [List.set_cons_succ, List.set_cons_zero]
        exact swap_cons_perm zs n _ _ hi
      | succ m =>
        simp only [List.getElem?_cons_succ] at hi hj
        rw [List.set_cons_succ, List.set_cons_succ]
        exact (ih n m x y (fun h => hij (by rw [h])) hi hj).cons z

/-- The JS destructuring swap permutes the list. -/
lemma lswap_perm {α : Type*} (l : List α) (i j : Nat) : (lswap l i j).Perm l := by
  rw [lswap]
  split
  · next x y hi hj =>
    by_cases hij : i = j
    · subst hij
      rw [hi] at hj
      cases hj
      rw [List.set_set, set_self_of_getElem hi]
    · exact set_set_perm l i j x y hij hi hj
  · exact List.Perm.refl l

/-- Every run of the shuffle loop permutes its input. -/
lemma fyAux_perm {α : Type*} (g : Nat → Nat) :
    ∀ (i k : Nat) (a : List α), (fyAux g k i a).Perm a := by
  intro i
  induction i with
  | zero => intro k a; exact List.Perm.refl a
  | succ i ih =>
    intro k a
    exact (ih (k + 1) (lswap a (i + 1) (g k % (i + 2)))).trans
      (lswap_perm a (i + 1) (g k % (i + 2)))

/-- `shuffle` permutes its input, whatever the draws. -/
lemma shuffleFrom_perm {α : Type*} (g : Nat → Nat) (k : Nat) (l : List α) :
    (shuffleFrom g k l).Perm l :=
  fyAux_perm g (l.length - 1) k l

/-- Unfolding of the exclusion-set membership test. -/
lemma exclHas_iff {m : ExclMap} {p q : String} :
    exclHas m p q = true ↔ ∃ s, m p = some s ∧ q ∈ s := by
  unfold exclHas
  cases hm : m p with
  | none => simp
  | some s => simp

/-- The seeding loop leaves keys outside the member list untouched. -/
lemma seedFold_not_mem (x : String) :
    ∀ (members : List String) (init : ExclMap), x ∉ members →
      members.foldl (fun m y => updateMap m y {y}) init x = init x := by
  intro members
  induction members with
  | nil => intro init _; rfl
  | cons z zs ih =>
    intro init hx
    rw [List.foldl_cons, ih _ (fun h => hx (List.mem_cons_of_mem z h))]
    have hxz : x ≠ z := fun h => hx (h ▸ List.mem_cons_self z zs)
    simp [updateMap, hxz]

/-- After the seeding loop every member's entry is its own singleton. -/
lemma seedFold_mem (x : String) :
    ∀ (members : List String) (init : ExclMap), x ∈ members →
      members.foldl (fun m y => updateMap m y {y}) init x = some {x} := by
  intro members
  induction members with
  | nil => intro init h; simp at h
  | cons z zs ih =>
    intro init hx
    rw [List.foldl_cons]
    by_cases hzs : x ∈ zs
    · exact ih _ hzs
    · have hxz : x = z := by
        rcases List.mem_cons.mp hx with h | h
        · exact h
        · exact absurd h hzs
      subst hxz
      rw [seedFold_not_mem x zs _ hzs]
      simp [updateMap]

/-- `seedExcl` maps every member to its own singleton set. -/
lemma seedExcl_mem {x : String} {members : List String} (hx : x ∈ members) :
    seedExcl members x = some {x} :=
  seedFold_mem x members _ hx

/-- An `excl[k].add(c)`-style update never removes an existing exclusion. -/
lemma exclHas_updateMap_insert (m : ExclMap) (k c : String) {p q : String}
    (h : exclHas m p q = true) :
    exclHas (updateMap m k (insert c ((m k).getD {k}))) p q = true := by
  rw [exclHas_iff] at h ⊢
  obtain ⟨s, hs, hq⟩ := h
  by_cases hpk : p = k
  · subst hpk
    exact ⟨insert c ((m p).getD {p}), by simp [updateMap], by simp [hs, hq]⟩
  · exact ⟨s, by simpa [updateMap, hpk] using hs, hq⟩

/-- Processing one exclusion rule never removes an existing exclusion. -/
lemma exclHas_addRule_mono {m : ExclMap} {p q : String} (r : ExclusionRule)
    (h : exclHas m p q = true) : exclHas (addRule m r) p q = true := by
  obtain ⟨a, b, mu⟩ := r
  cases mu with
  | false => simpa [addRule] using exclHas_updateMap_insert m a b h
  | true =>
    simpa [addRule] using
      exclHas_updateMap_insert _ b a (exclHas_updateMap_insert m a b h)

/-- Folding the rule loop never removes an existing exclusion. -/
lemma exclHas_foldl_mono {p q : String} :
    ∀ (rules : List ExclusionRule) (m : ExclMap), exclHas m p q = true →
      exclHas (rules.foldl addRule m) p q = true := by
  intro rules
  induction rules with
  | nil => intro m h; exact h
  | cons r rs ih =>
    intro m h
    rw [List.foldl_cons]
    exact ih _ (exclHas_addRule_mono r h)

/-- Every member's own id is in its final forbidden set. -/
lemma exclHas_buildExcl_self {members : List String} (rules : List ExclusionRule)
    {x : String} (hx : x ∈ members) :
    exclHas (buildExcl members rules) x x = true := by
  apply exclHas_foldl_mono
  rw [exclHas_iff]
  exact ⟨{x}, seedExcl_mem hx, Finset.mem_singleton_self x⟩

/-- Processing rule `(a, b, mu)` puts `b` into `a`'s forbidden set. -/
lemma exclHas_addRule_fst (m : ExclMap) (a b : String) (mu : Bool) :
    exclHas (addRule m (a, b, mu)) a b = true := by
  have h1 : exclHas (updateMap m a (insert b ((m a).getD {a}))) a b = true := by
    rw [exclHas_iff]
    exact ⟨insert b ((m a).getD {a}), by simp [updateMap], Finset.mem_insert_self b _⟩
  cases mu with
  | false => simpa [addRule] using h1
  | true => simpa [addRule] using exclHas_updateMap_insert _ b a h1

/-- Processing a mutual rule `(a, b, true)` puts `a` into `b`'s set. -/
lemma exclHas_addRule_snd (m : ExclMap) (a b : String) :
    exclHas (addRule m (a, b, true)) b a = true := by
  rw [exclHas_iff]
  refine ⟨insert a ((updateMap m a (insert b ((m a).getD {a})) b).getD {b}),
    ?_, Finset.mem_insert_self a _⟩
  simp [addRule, updateMap]

/-- Every listed rule ends up reflected in the folded exclusion map. -/
lemma exclHas_foldl_rule :
    ∀ (rules : List ExclusionRule) (m : ExclMap) (a b : String) (mu : Bool),
      (a, b, mu) ∈ rules →
      exclHas (rules.foldl addRule m) a b = true ∧
      (mu = true → exclHas (rules.foldl addRule m) b a = true) := by
  intro rules
  induction rules with
  | nil => intro m a b mu h; simp at h
  | cons r rs ih =>
    intro m a b mu h
    rw [List.foldl_cons]
    rcases List.mem_cons.mp h with h | h
    · subst h
      refine ⟨exclHas_foldl_mono rs _ (exclHas_addRule_fst m a b mu), ?_⟩
      rintro rfl
      exact exclHas_foldl_mono rs _ (exclHas_addRule_snd m a b)
    · exact ih _ a b mu h

/-- If every attempt's candidate fails validation, the retry loop exhausts
its budget and reports the search-exhaustion failure. -/
lemma searchLoop_all_fail {g : Nat → Nat} {excl : ExclMap} {members : List String}
    (hall : ∀ t, checkOk excl (members.zip (attemptReceivers g members t)) = false) :
    ∀ (r t : Nat), searchLoop g excl members t r =
      .failure "Unable to find valid assignment under current constraints" := by
  intro r
  induction r with
  | zero => intro t; rfl
  | succ r ih =>
    intro t
    rw [searchLoop]
    simp only [hall t, Bool.false_eq_true, if_false]
    exact ih (t + 1)

/-- If each of the first `r` attempts starting at attempt `t` fails
validation, the retry loop exhausts its budget and reports the
search-exhaustion failure. -/
lemma searchLoop_fail_upTo {g : Nat → Nat} {excl : ExclMap} {members : List String} :
    ∀ (r t : Nat),
      (∀ i, i < r →
        checkOk excl (members.zip (attemptReceivers g members (t + i))) = false) →
      searchLoop g excl members t r =
        .failure "Unable to find valid assignment under current constraints" := by
  intro r
  induction r with
  | zero => intro t _; rfl
  | succ r ih =>
    intro t h
    rw [searchLoop]
    have h0 : checkOk excl (members.zip (attemptReceivers g members t)) = false := by
      have hfirst := h 0 (Nat.succ_pos r)
      rwa [Nat.add_zero] at hfirst
    simp only [h0, Bool.false_eq_true, if_false]
    apply ih (t + 1)
    intro i hi
    have hnext := h (i + 1) (Nat.succ_lt_succ hi)
    rwa [show t + (i + 1) = t + 1 + i by omega] at hnext

/-- A success of the retry loop is the positional pairing of the members
with the candidate of some attempt that passed validation. -/
lemma searchLoop_success {g : Nat → Nat} {excl : ExclMap} {members : List String} :
    ∀ (r t : Nat) (mp : List (String × String)),
      searchLoop g excl members t r = .success mp →
      ∃ t', checkOk excl (members.zip (attemptReceivers g members t')) = true ∧
        mp = members.zip (attemptReceivers g members t') := by
  intro r
  induction r with
  | zero => intro t mp h; exact absurd h (by simp [searchLoop])
  | succ r ih =>
    intro t mp h
    rw [searchLoop] at h
    cases hc : checkOk excl (members.zip (attemptReceivers g members t)) with
    | true =>
      rw [hc] at h
      simp only [if_true] at h
      cases h
      exact ⟨t, hc, rfl⟩
    | false =>
      rw [hc] at h
      simp only [Bool.false_eq_true, if_false] at h
      exact ih (t + 1) mp h

/-- The spec-side loop only consults draws for indices up to its start. -/
lemma fisherYatesSpec_congr {α : Type*} :
    ∀ (i : Nat) (j1 j2 : Nat → Nat) (a : List α),
      (∀ i', i' ≤ i → j1 i' = j2 i') →
      fisherYatesSpec j1 i a = fisherYatesSpec j2 i a := by
  intro i
  induction i with
  | zero => intro j1 j2 a _; rfl
  | succ i ih =>
    intro j1 j2 a h
    rw [fisherYatesSpec, fisherYatesSpec, h (i + 1) (Nat.le_refl _)]
    exact ih j1 j2 _ (fun i' hi' => h i' (Nat.le_succ_of_le hi'))

/-- The implementation loop is the spec-side loop run on the draws indexed
by step, each reduced modulo `i + 1`. -/
lemma fyAux_eq_spec {α : Type*} :
    ∀ (i : Nat) (g : Nat → Nat) (k : Nat) (a : List α),
      fyAux g k i a =
        fisherYatesSpec (fun i' => g (k + (i - i')) % (i' + 1)) i a := by
  intro i
  induction i with
  | zero => intro g k a; rfl
  | succ i ih =>
    intro g k a
    rw [fyAux, fisherYatesSpec]
    rw [ih g (k + 1)]
    simp only [Nat.sub_self, Nat.add_zero, show i + 1 + 1 = i + 2 from rfl]
    apply fisherYatesSpec_congr
    intro i' hi'
    have harg : k + 1 + (i - i') = k + (i + 1 - i') := by omega
    simp only [harg]

/-- Two exclusion maps that agree everywhere except possibly at key `c`. -/
def AgreeOff (c : String) (m1 m2 : ExclMap) : Prop :=
  ∀ x, x ≠ c → m1 x = m2 x

/-- The `excl[a].add(b)` update preserves agreement off any key. -/
lemma updateInsert_agreeOff (c : String) (m1 m2 : ExclMap) (a b : String)
    (h : AgreeOff c m1 m2) :
    AgreeOff c (updateMap m1 a (insert b ((m1 a).getD {a})))
      (updateMap m2 a (insert b ((m2 a).getD {a}))) := by
  intro x hx
  by_cases hxa : x = a
  · subst hxa
    simp [updateMap, h x hx]
  · simp [updateMap, hxa, h x hx]

/-- Processing a rule preserves agreement off any key. -/
lemma addRule_agreeOff {c : String} {m1 m2 : ExclMap}
    (h : AgreeOff c m1 m2) (r : ExclusionRule) :
    AgreeOff c (addRule m1 r) (addRule m2 r) := by
  obtain ⟨a, b, mu⟩ := r
  cases mu with
  | false => simpa [addRule] using updateInsert_agreeOff c m1 m2 a b h
  | true =>
    simpa [addRule] using
      updateInsert_agreeOff c _ _ b a (updateInsert_agreeOff c m1 m2 a b h)

/-- Folding the rule list preserves agreement off any key. -/
lemma foldRules_agreeOff {c : String} :
    ∀ (rules : List ExclusionRule) (m1 m2 : ExclMap), AgreeOff c m1 m2 →
      AgreeOff c (rules.foldl addRule m1) (rules.foldl addRule m2) := by
  intro rules
  induction rules with
  | nil => intro m1 m2 h; exact h
  | cons r rs ih =>
    intro m1 m2 h
    rw [List.foldl_cons, List.foldl_cons]
    exact ih _ _ (addRule_agreeOff h r)

/-- A non-mutual rule writes only the entry of its first participant. -/
lemma addRule_nonmutual_inert (m : ExclMap) (a b : String) :
    AgreeOff a (addRule m (a, b, false)) m := by
  intro x hx
  simp [addRule, updateMap, hx]

/-- Candidate validation only consults the givers' entries. -/
lemma checkOk_congr :
    ∀ (pairs : List (String × String)) (m1 m2 : ExclMap),
      (∀ p ∈ pairs, m1 p.1 = m2 p.1) → checkOk m1 pairs = checkOk m2 pairs := by
  intro pairs
  induction pairs with
  | nil => intro m1 m2 _; rfl
  | cons p ps ih =>
    intro m1 m2 h
    have h1 : exclHas m1 p.1 p.2 = exclHas m2 p.1 p.2 := by
      unfold exclHas
      rw [h p (List.mem_cons_self p ps)]
    have h2 := ih m1 m2 (fun q hq => h q (List.mem_cons_of_mem p hq))
    simp only [checkOk, List.all_cons] at h2 ⊢
    rw [h1, h2]

/-- The retry loop gives the same outcome under two exclusion maps that
only differ at a key that is not a member. -/
lemma searchLoop_congr {g : Nat → Nat} {m1 m2 : ExclMap} {members : List String}
    {c : String} (hagree : AgreeOff c m1 m2) (hc : c ∉ members) :
    ∀ (r t : Nat), searchLoop g m1 members t r = searchLoop g m2 members t r := by
  intro r
  induction r with
  | zero => intro t; rfl
  | succ r ih =>
    intro t
    have hck : checkOk m1 (members.zip (attemptReceivers g members t)) =
        checkOk m2 (members.zip (attemptReceivers g members t)) := by
      apply checkOk_congr
      intro p hp
      obtain ⟨x, y⟩ := p
      have hx : x ∈ members := (List.of_mem_zip hp).1
      exact hagree x (fun h => hc (h ▸ hx))
    rw [searchLoop, searchLoop, hck]
    by_cases hb : checkOk m2 (members.zip (attemptReceivers g members t)) = true
    · rw [if_pos hb, if_pos hb]
    · rw [if_neg hb, if_neg hb]
      exact ih (t + 1)

/-- With two participants and a mutual exclusion between them, every
candidate permutation fails validation: the identity pairs each member
with itself and the transposition pairs "a" with the excluded "b". -/
lemma twoMutual_all_fail (g : Nat → Nat) :
    ∀ t, checkOk (buildExcl ["a", "b"] [("a", "b", true)])
      (["a", "b"].zip (attemptReceivers g ["a", "b"] t)) = false := by
  intro t
  have hsh : attemptReceivers g ["a", "b"] t =
      lswap ["a", "b"] 1 (g (t * 1) % 2) := rfl
  rcases Nat.mod_two_eq_zero_or_one (g (t * 1)) with h | h
  · rw [hsh, h]
    decide
  · rw [hsh, h]
    decide

/-- C1: whenever `computeMapping` returns `Success(mapping)` for a list of
at least 2 distinct participants, the givers are exactly the participants
in order, the receivers are a permutation of the participants, every
participant appears exactly once as giver and exactly once as receiver, no
giver equals its receiver, no pair of the mapping is in the built
exclusion set, and no pair listed in the exclusion rules (nor the reversed
pair of a mutual rule) occurs in the mapping. -/
theorem computeMapping_success_valid (g : Nat → Nat) (members : List String)
    (rules : List ExclusionRule) (retries : Int) (mapping : List (String × String))
    (hlen : 2 ≤ members.length) (hnd : members.Nodup)
    (h : computeMapping g members rules retries = .success mapping) :
    mapping.map Prod.fst = members ∧
    (mapping.map Prod.snd).Perm members ∧
    (∀ x ∈ members, (mapping.map Prod.fst).count x = 1 ∧
      (mapping.map Prod.snd).count x = 1) ∧
    (∀ p ∈ mapping, p.1 ≠ p.2) ∧
    (∀ p ∈ mapping, exclHas (buildExcl members rules) p.1 p.2 = false) ∧
    (∀ a b mu, (a, b, mu) ∈ rules →
      (a, b) ∉ mapping ∧ (mu = true → (b, a) ∉ mapping)) := by
  rw [computeMapping, if_neg (by omega)] at h
  obtain ⟨t, hck, rfl⟩ := searchLoop_success _ _ _ h
  have hperm : (attemptReceivers g members t).Perm members :=
    shuffleFrom_perm g _ members
  have hfst : (members.zip (attemptReceivers g members t)).map Prod.fst = members :=
    List.map_fst_zip _ _ (le_of_eq hperm.length_eq.symm)
  have hsnd : (members.zip (attemptReceivers g members t)).map Prod.snd =
      attemptReceivers g members t :=
    List.map_snd_zip _ _ (le_of_eq hperm.length_eq)
  rw [checkOk] at hck
  have hexcl : ∀ p ∈ members.zip (attemptReceivers g members t),
      exclHas (buildExcl members rules) p.1 p.2 = false := by
    intro p hp
    have hb := List.all_eq_true.mp hck p hp
    simpa using hb
  have hne : ∀ p ∈ members.zip (attemptReceivers g members t), p.1 ≠ p.2 := by
    intro p hp heq
    have hx : p.1 ∈ members := (List.of_mem_zip hp).1
    have hself := exclHas_buildExcl_self rules hx
    nth_rewrite 2 [heq] at hself
    rw [hexcl p hp] at hself
    exact Bool.false_ne_true hself
  refine ⟨hfst, ?_, ?_, hne, hexcl, ?_⟩
  · rw [hsnd]
    exact hperm
  · intro x hx
    constructor
    · rw [hfst]
      exact List.count_eq_one_of_mem hnd hx
    · rw [hsnd, hperm.count_eq x]
      exact List.count_eq_one_of_mem hnd hx
  · intro a b mu hr
    have hrule := exclHas_foldl_rule rules (seedExcl members) a b mu hr
    constructor
    · intro hmem
      have h1 : exclHas (buildExcl members rules) a b = false := hexcl (a, b) hmem
      have h2 : exclHas (buildExcl members rules) a b = true := hrule.1
      rw [h1] at h2
      exact Bool.false_ne_true h2
    · intro hmu hmem
      have h1 : exclHas (buildExcl members rules) b a = false := hexcl (b, a) hmem
      have h2 : exclHas (buildExcl members rules) b a = true := hrule.2 hmu
      rw [h1] at h2
      exact Bool.false_ne_true h2

/-- C1 witness: a concrete successful run with two distinct participants,
obtained by applying the validity theorem at an explicit draw stream. -/
theorem computeMapping_success_valid_witness :
    List.map Prod.fst [(("a" : String), ("b" : String)), ("b", "a")] = ["a", "b"] ∧
    (List.map Prod.snd [(("a" : String), ("b" : String)), ("b", "a")]).Perm ["a", "b"] ∧
    ∀ p ∈ [(("a" : String), ("b" : String)), ("b", "a")], p.1 ≠ p.2 := by
  have h := computeMapping_success_valid (fun _ => 0) ["a", "b"] [] 5
    [("a", "b"), ("b", "a")] (by decide) (by decide) (by decide)
  exact ⟨h.1, h.2.1, h.2.2.2.1⟩

/-- C2 counterexample: with no participants the failure reason is the
code's string `'Need at least 2 participants'`, not the claimed
`"insufficient participants"`. -/
theorem computeMapping_insufficient_cex :
    computeMapping (fun _ => 0) [] [] 7 = .failure "Need at least 2 participants" ∧
    computeMapping (fun _ => 0) [] [] 7 ≠ .failure "insufficient participants" :=
  ⟨rfl, by decide⟩

/-- C2 amended: for fewer than 2 participants `computeMapping` fails
immediately with reason `'Need at least 2 participants'`, for every draw
stream, rule list and retry bound — so the result is deterministic, no
randomness is consumed and `maxRetries` is never consulted. -/
theorem computeMapping_insufficient (g : Nat → Nat) (members : List String)
    (rules : List ExclusionRule) (retries : Int) (h : members.length < 2) :
    computeMapping g members rules retries =
      .failure "Need at least 2 participants" := by
  rw [computeMapping, if_pos h]

/-- C2 witness: the singleton participant list at concrete arguments. -/
theorem computeMapping_insufficient_witness :
    List.length ["solo"] < 2 ∧
    computeMapping (fun k => k) ["solo"] [("a", "b", true)] 99 =
      .failure "Need at least 2 participants" :=
  ⟨by decide,
    computeMapping_insufficient (fun k => k) ["solo"] [("a", "b", true)] 99 (by decide)⟩

/-- C3 counterexample: at the claim's own instance the reason string is
capitalised (`'Unable …'`), so the claimed lowercase reason `"unable …"`
is not returned. -/
theorem computeMapping_exhaustion_cex :
    computeMapping (fun _ => 0) ["a", "b"] [("a", "b", true)] 50 ≠
      .failure "unable to find valid assignment under current constraints" ∧
    computeMapping (fun _ => 0) ["a", "b"] [("a", "b", true)] 50 =
      .failure "Unable to find valid assignment under current constraints" := by
  have heq : computeMapping (fun _ => 0) ["a", "b"] [("a", "b", true)] 50 =
      .failure "Unable to find valid assignment under current constraints" := by
    rw [computeMapping, if_neg (by decide)]
    exact searchLoop_all_fail (twoMutual_all_fail _) _ 0
  refine ⟨?_, heq⟩
  rw [heq]
  decide

/-- C3 amended: if every one of the `maxRetries` candidate permutations
fails the exclusion check, `computeMapping` returns the failure with the
code's reason `'Unable to find valid assignment under current
constraints'`; in particular with participants `["a","b"]` and a mutual
exclusion between them the search always exhausts its bound of 50 and
fails, for every draw sequence. -/
theorem computeMapping_exhaustion :
    (∀ (g : Nat → Nat) (members : List String) (rules : List ExclusionRule)
      (retries : Int), 2 ≤ members.length →
      (∀ t, t < retries.toNat → checkOk (buildExcl members rules)
        (members.zip (attemptReceivers g members t)) = false) →
      computeMapping g members rules retries =
        .failure "Unable to find valid assignment under current constraints") ∧
    (∀ g : Nat → Nat, computeMapping g ["a", "b"] [("a", "b", true)] 50 =
      .failure "Unable to find valid assignment under current constraints") := by
  constructor
  · intro g members rules retries h2 hall
    rw [computeMapping, if_neg (by omega)]
    apply searchLoop_fail_upTo retries.toNat 0
    intro i hi
    rw [Nat.zero_add]
    exact hall i hi
  · intro g
    rw [computeMapping, if_neg (by decide)]
    exact searchLoop_all_fail (twoMutual_all_fail g) _ 0

/-- C3 witness: the exhaustion theorem applied at a concrete draw stream
and retry bound. -/
theorem computeMapping_exhaustion_witness :
    computeMapping (fun _ => 3) ["a", "b"] [("a", "b", true)] 2 =
      .failure "Unable to find valid assignment under current constraints" :=
  computeMapping_exhaustion.1 (fun _ => 3) ["a", "b"] [("a", "b", true)] 2
    (by decide) (fun t _ => twoMutual_all_fail (fun _ => 3) t)

/-- C4 counterexample: under the constant draw stream 5 every attempt
shuffles `["a","b","c"]` to itself (both steps self-swap, since
`5 % 3 = 2` and `5 % 2 = 1`), so all 2000 attempts fail the self-exclusion
check and the call returns `Failure` — it does not return `Success` for
every sequence of random draws. -/
theorem computeMapping_abc_cex :
    computeMapping (fun _ => 5) ["a", "b", "c"] [("a", "b", false)] 2000 =
      .failure "Unable to find valid assignment under current constraints" := by
  have hall : ∀ t, checkOk (buildExcl ["a", "b", "c"] [("a", "b", false)])
      (["a", "b", "c"].zip (attemptReceivers (fun _ => 5) ["a", "b", "c"] t)) =
        false := by
    intro t
    have hid : attemptReceivers (fun _ => 5) ["a", "b", "c"] t = ["a", "b", "c"] := by
      simp [attemptReceivers, shuffleFrom, fyAux, lswap]
    rw [hid]
    decide
  rw [computeMapping, if_neg (by decide)]
  exact searchLoop_all_fail hall _ 0

/-- C4 amended: `computeMapping(['a','b','c'], [('a','b',false)])` with the
default budget 2000 may exhaust its attempts and fail for adversarial draw
sequences, but whenever it returns `Success` the mapping never assigns 'a'
the receiver 'b'; and suitable draw sequences do return `Success`. -/
theorem computeMapping_abc_no_ab :
    (∀ (g : Nat → Nat) (mapping : List (String × String)),
      computeMapping g ["a", "b", "c"] [("a", "b", false)] 2000 = .success mapping →
      ("a", "b") ∉ mapping) ∧
    computeMapping (fun k => if k % 2 = 0 then 1 else 0) ["a", "b", "c"]
      [("a", "b", false)] 2000 = .success [("a", "c"), ("b", "a"), ("c", "b")] := by
  constructor
  · intro g mapping h hmem
    rw [computeMapping, if_neg (by decide)] at h
    obtain ⟨t, hck, rfl⟩ := searchLoop_success _ _ _ h
    rw [checkOk] at hck
    have hpb := List.all_eq_true.mp hck ("a", "b") hmem
    have hab : exclHas (buildExcl ["a", "b", "c"] [("a", "b", false)]) "a" "b" =
        true := by decide
    simp only [hab, Bool.not_true] at hpb
    exact Bool.false_ne_true hpb
  · rfl

/-- C4 witness: the no-forbidden-pair property at the concrete successful
run exhibited in the theorem's second conjunct. -/
theorem computeMapping_abc_no_ab_witness :
    ("a", "b") ∉ [(("a" : String), ("c" : String)), ("b", "a"), ("c", "b")] :=
  computeMapping_abc_no_ab.1 (fun k => if k % 2 = 0 then 1 else 0)
    [("a", "c"), ("b", "a"), ("c", "b")] (by rfl)

/-- C5: for every draw stream and starting draw index, `shuffle` returns a
permutation of its input — the same multiset (same length, same elements,
same multiplicities) — including empty and singleton inputs. -/
theorem shuffle_preserves_multiset {α : Type*} (g : Nat → Nat) (k : Nat) (l : List α) :
    (shuffleFrom g k l).Perm l ∧
    ((shuffleFrom g k l : Multiset α) = (l : Multiset α)) ∧
    (shuffleFrom g k l).length = l.length :=
  ⟨shuffleFrom_perm g k l, Multiset.coe_eq_coe.mpr (shuffleFrom_perm g k l),
    (shuffleFrom_perm g k l).length_eq⟩

/-- C6: `shuffle` implements Fisher–Yates: it equals the spec-side loop
that iterates `i` from the last position down to 1 and exchanges positions
`i` and `j`, where the draw for step `i` is taken modulo `i + 1` and hence
always lies in `[0, i]`; on inputs of length 0 or 1 no swap is performed
and the input is returned unchanged. -/
theorem shuffle_is_fisherYates :
    (∀ (α : Type u) (g : Nat → Nat) (k : Nat) (l : List α),
      shuffleFrom g k l =
        shuffleSpec (fun i => g (k + (l.length - 1 - i)) % (i + 1)) l) ∧
    (∀ (g : Nat → Nat) (k d i : Nat), g (k + d) % (i + 1) ≤ i) ∧
    (∀ (α : Type u) (g : Nat → Nat) (k : Nat) (l : List α), l.length ≤ 1 →
      shuffleFrom g k l = l) := by
  refine ⟨?_, ?_, ?_⟩
  · intro α g k l
    rw [shuffleFrom, shuffleSpec]
    exact fyAux_eq_spec (l.length - 1) g k l
  · intro g k d i
    exact Nat.lt_succ_iff.mp (Nat.mod_lt _ (Nat.succ_pos i))
  · intro α g k l h
    rw [shuffleFrom, show l.length - 1 = 0 by omega]
    rfl

/-- C6 witness: the no-swap clause applied to a singleton list. -/
theorem shuffle_is_fisherYates_witness :
    List.length (["x"] : List String) ≤ 1 ∧
    shuffleFrom (fun _ => 7) 4 (["x"] : List String) = ["x"] :=
  ⟨by decide, shuffle_is_fisherYates.2.2 String (fun _ => 7) 4 ["x"] (by decide)⟩

/-- C7 counterexample: with rules `[("a","b",false), ("b","a",false)]` the
rule `("a","b",false)` has `mutual = false` and yet "a" is in "b"'s
forbidden set (the second rule put it there), refuting the claimed
"exactly when mutual is true". -/
theorem exclusion_set_cex :
    ¬ (∀ (members : List String) (rules : List ExclusionRule),
      (∀ x ∈ members, exclHas (buildExcl members rules) x x = true) ∧
      (∀ a b mu, (a, b, mu) ∈ rules →
        exclHas (buildExcl members rules) a b = true ∧
        (exclHas (buildExcl members rules) b a = true ↔ mu = true))) := by
  intro h
  have h2 := ((h ["a", "b"] [("a", "b", false), ("b", "a", false)]).2 "a" "b" false
    (by decide)).2
  have hba : exclHas (buildExcl ["a", "b"] [("a", "b", false), ("b", "a", false)])
      "b" "a" = true := by decide
  exact absurd (h2.mp hba) (by decide)

/-- C7 amended: for every participants list and rule list, each member's
own id is in its own forbidden set regardless of the rules, and for each
rule `(A,B,mutual)`, `B` is in `A`'s forbidden set, with `A` additionally
in `B`'s forbidden set whenever `mutual` is true. -/
theorem exclusion_set_invariant (members : List String) (rules : List ExclusionRule) :
    (∀ x ∈ members, exclHas (buildExcl members rules) x x = true) ∧
    (∀ a b mu, (a, b, mu) ∈ rules →
      exclHas (buildExcl members rules) a b = true ∧
      (mu = true → exclHas (buildExcl members rules) b a = true)) := by
  refine ⟨fun x hx => exclHas_buildExcl_self rules hx, ?_⟩
  intro a b mu hr
  exact exclHas_foldl_rule rules (seedExcl members) a b mu hr

/-- C7 witness: the invariant applied to a concrete mutual rule. -/
theorem exclusion_set_invariant_witness :
    exclHas (buildExcl ["a", "b"] [("a", "b", true)]) "a" "a" = true ∧
    exclHas (buildExcl ["a", "b"] [("a", "b", true)]) "a" "b" = true ∧
    exclHas (buildExcl ["a", "b"] [("a", "b", true)]) "b" "a" = true := by
  have h := exclusion_set_invariant ["a", "b"] [("a", "b", true)]
  exact ⟨h.1 "a" (by decide), (h.2 "a" "b" true (by decide)).1,
    (h.2 "a" "b" true (by decide)).2 rfl⟩

/-- C8: a non-mutual rule whose first participant is not in the
participant list creates only an inert exclusion entry — for every fixed
draw stream the result is the same with and without that rule, wherever
the rule sits in the rule list. -/
theorem inert_rule_same_result (g : Nat → Nat) (members : List String)
    (rules1 rules2 : List ExclusionRule) (a b : String) (retries : Int)
    (ha : a ∉ members) :
    computeMapping g members (rules1 ++ (a, b, false) :: rules2) retries =
      computeMapping g members (rules1 ++ rules2) retries := by
  rw [computeMapping, computeMapping]
  by_cases hlen : members.length < 2
  · rw [if_pos hlen, if_pos hlen]
  · rw [if_neg hlen, if_neg hlen]
    have hagree : AgreeOff a (buildExcl members (rules1 ++ (a, b, false) :: rules2))
        (buildExcl members (rules1 ++ rules2)) := by
      rw [buildExcl, buildExcl, List.foldl_append, List.foldl_append, List.foldl_cons]
      exact foldRules_agreeOff rules2 _ _ (addRule_nonmutual_inert _ a b)
    exact searchLoop_congr hagree ha retries.toNat 0

/-- C8 witness: dropping an inert rule for the absent participant "z"
leaves a concrete call unchanged. -/
theorem inert_rule_same_result_witness :
    ("z" ∉ ["a", "b"]) ∧
    computeMapping (fun _ => 0) ["a", "b"] [("z", "q", false)] 5 =
      computeMapping (fun _ => 0) ["a", "b"] [] 5 :=
  ⟨by decide,
    inert_rule_same_result (fun _ => 0) ["a", "b"] [] [] "z" "q" 5 (by decide)⟩

/-- C9: a non-array `participants` argument yields the structured failure
`'Need at least 2 participants'` — exactly as a too-short list does — and
never an exception. -/
theorem computeMappingJS_nonArray (g : Nat → Nat) (tag : String)
    (rules : List ExclusionRule) (retries : Int) :
    computeMappingJS g (.nonArray tag) rules retries =
      .failure "Need at least 2 participants" ∧
    computeMappingJS g (.nonArray tag) rules retries =
      computeMappingJS g (.arr []) rules retries :=
  ⟨rfl, rfl⟩

/-- C10: with at least two participants and a zero-or-negative retry
bound, the loop body never runs: the call returns the search-exhaustion
failure immediately, independent of the draw stream. -/
theorem computeMapping_nonpositive_retries (g : Nat → Nat) (members : List String)
    (rules : List ExclusionRule) (retries : Int) (h2 : 2 ≤ members.length)
    (hr : retries ≤ 0) :
    computeMapping g members rules retries =
      .failure "Unable to find valid assignment under current constraints" := by
  rw [computeMapping, if_neg (by omega), Int.toNat_of_nonpos hr]
  rfl

/-- C10 witness: a negative retry bound at concrete arguments. -/
theorem computeMapping_nonpositive_retries_witness :
    2 ≤ List.length ["a", "b"] ∧ (-3 : Int) ≤ 0 ∧
    computeMapping (fun k => k + 1) ["a", "b"] [] (-3) =
      .failure "Unable to find valid assignment under current constraints" :=
  ⟨by decide, by decide,
    computeMapping_nonpositive_retries (fun k => k + 1) ["a", "b"] [] (-3)
      (by decide) (by decide)⟩

end SecretSanta
